import Mathlib

/-!
# libla: complex numbers and quaternions

A shallow embedding of `src/cplx.h` and `src/quat.h` (namespace `la`).

* The scalar type parameter `T` of the templates is a type variable carrying
  the arithmetic the code uses (a ring, a field for `/`, an ordered field for `>`).
* The functions of `<cmath>` (`sqrt`, `sin`, `cos`, `atan2`, `asin`) are
  explicit function arguments; theorems over the reals pass `Real.sqrt`,
  `Real.sin`, ...
* The member `exp()` of both structs ends in the unqualified call `exp(x)`. Inside
  the member that name finds the member `exp()` itself, which takes no argument,
  so the call has no meaning and `exp()` has no instance for any `T`. Of
  `quat::exp()` only the first operand of its product, which holds the division
  `sin(vn) / vn`, is embedded (`quat.expFactor`); `cplx::exp()` is not embedded.
* A division by a computed scalar is checked: `sdiv a b` is `none` when
  `b = 0` (the C++ code would produce a non-finite value there), so every
  operation that divides returns an `Option`.  Halving an angle (`a / 2`) divides
  by the literal `2` and is left unchecked.
* The random source `::rand() / (float) RAND_MAX` is an injected stream of
  draws `Nat → T` together with a read position.
* A loop is run with fuel; running out of fuel is `none`.
-/

namespace la

/-! ## Collaborator types (vec2.h, vec3.h, vec4.h, mat2.h, mat4.h) -/

/-- Modelled from the spec: `vec2<T>` of the external vector module (vec2.h is not
among the sources): a 2-component vector accessed by the named components x, y. -/
@[ext] structure vec2 (T : Type) where
  x : T
  y : T
deriving DecidableEq

/-- Modelled from the spec: `vec3<T>` of the external vector module (vec3.h is not
among the sources): a 3-component vector accessed by the named components x, y, z. -/
@[ext] structure vec3 (T : Type) where
  x : T
  y : T
  z : T
deriving DecidableEq

/-- Modelled from the spec: `vec4<T>` of the external vector module (vec4.h is not
among the sources): a 4-component vector accessed by the named components x, y, z, w. -/
@[ext] structure vec4 (T : Type) where
  x : T
  y : T
  z : T
  w : T
deriving DecidableEq

/-- Modelled from the spec: `mat2<T>` of the external matrix module (mat2.h is not
among the sources), constructed from a row-major list of four scalars:
`mat2(a, b, c, d)` has the rows `(a, b)` and `(c, d)`. -/
@[ext] structure mat2 (T : Type) where
  m00 : T
  m01 : T
  m10 : T
  m11 : T
deriving DecidableEq

/-- Modelled from the spec: `mat4<T>` of the external matrix module (mat4.h is not
among the sources), constructed from a row-major list of sixteen scalars: the
first four arguments are the first row, and so on. -/
@[ext] structure mat4 (T : Type) where
  m00 : T
  m01 : T
  m02 : T
  m03 : T
  m10 : T
  m11 : T
  m12 : T
  m13 : T
  m20 : T
  m21 : T
  m22 : T
  m23 : T
  m30 : T
  m31 : T
  m32 : T
  m33 : T
deriving DecidableEq

section Collaborators

variable {T : Type}

/-- Modelled from the spec: the norm of a 3-vector (`vec3::len`, vec3.h is not among
the sources), the square root of the sum of the squared components. -/
def vec3.len [Ring T] (sqrt : T → T) (v : vec3 T) : T :=
  sqrt (v.x * v.x + v.y * v.y + v.z * v.z)

/-- Modelled from the spec: a 3-vector times a scalar (`vec3::operator*(T)`, vec3.h is
not among the sources), componentwise. -/
def vec3.muls [Ring T] (v : vec3 T) (a : T) : vec3 T :=
  ⟨v.x * a, v.y * a, v.z * a⟩

/-- Modelled from the spec: the product of a row-major 2×2 matrix with a column
vector (mat2.h is not among the sources). -/
def mat2.mulVec [Ring T] (m : mat2 T) (v : vec2 T) : vec2 T :=
  ⟨m.m00 * v.x + m.m01 * v.y,
   m.m10 * v.x + m.m11 * v.y⟩

/-- Modelled from the spec: the product of a row-major 4×4 matrix with a column
vector (mat4.h is not among the sources). -/
def mat4.mulVec [Ring T] (m : mat4 T) (v : vec4 T) : vec4 T :=
  ⟨m.m00 * v.x + m.m01 * v.y + m.m02 * v.z + m.m03 * v.w,
   m.m10 * v.x + m.m11 * v.y + m.m12 * v.z + m.m13 * v.w,
   m.m20 * v.x + m.m21 * v.y + m.m22 * v.z + m.m23 * v.w,
   m.m30 * v.x + m.m31 * v.y + m.m32 * v.z + m.m33 * v.w⟩

/-- The scalar division `a / b` of the code, checked: undefined (`none`) when the
divisor is zero. -/
def sdiv [Field T] [DecidableEq T] (a b : T) : Option T :=
  if b = 0 then none else some (a / b)

end Collaborators

/-! ## cplx.h -/

/-- The struct `cplx<T>`: the pair `(x, y)` standing for `x + y·i`. -/
@[ext] structure cplx (T : Type) where
  x : T
  y : T
deriving DecidableEq

namespace cplx

variable {T : Type}

/-- The constructor `cplx(T a = 0)`, through `set(a, 0)`. -/
def ofReal [Ring T] (a : T) : cplx T := ⟨a, 0⟩

/-- The constant `cplx::I`, `(0, 1)`. -/
def I [Ring T] : cplx T := ⟨0, 1⟩

/-- The sum `operator+(const cplx&)`. -/
def add [Ring T] (a c : cplx T) : cplx T := ⟨a.x + c.x, a.y + c.y⟩

/-- The difference `operator-(const cplx&)`. -/
def sub [Ring T] (a c : cplx T) : cplx T := ⟨a.x - c.x, a.y - c.y⟩

/-- The product `operator*(const cplx&)`. -/
def mul [Ring T] (a c : cplx T) : cplx T :=
  ⟨a.x * c.x - a.y * c.y, a.x * c.y + a.y * c.x⟩

/-- The scalar product `operator*(T)`. -/
def muls [Ring T] (c : cplx T) (a : T) : cplx T := ⟨c.x * a, c.y * a⟩

/-- The scalar quotient `operator/(T)`, each component divided by `a`. -/
def divs [Field T] [DecidableEq T] (c : cplx T) (a : T) : Option (cplx T) := do
  let x ← sdiv c.x a
  let y ← sdiv c.y a
  pure ⟨x, y⟩

/-- The unary `operator-()`, `*this * (-1)`. -/
def neg [Ring T] (c : cplx T) : cplx T := c.muls (-1)

instance [Ring T] : Add (cplx T) := ⟨add⟩
instance [Ring T] : Sub (cplx T) := ⟨sub⟩
instance [Ring T] : Mul (cplx T) := ⟨mul⟩
instance [Ring T] : Neg (cplx T) := ⟨neg⟩

/-- The conjugate `conj()`. -/
def conj [Ring T] (c : cplx T) : cplx T := ⟨c.x, -c.y⟩

/-- The squared norm `lensq()`. -/
def lensq [Ring T] (c : cplx T) : T := c.x * c.x + c.y * c.y

/-- The norm `len()`, `sqrt(lensq())`. -/
def len [Ring T] (sqrt : T → T) (c : cplx T) : T := sqrt c.lensq

/-- The squared distance `distsq(c)`. -/
def distsq [Ring T] (a c : cplx T) : T := (a - c).lensq

/-- The distance `dist(c)`. -/
def dist [Ring T] (sqrt : T → T) (a c : cplx T) : T := sqrt (a.distsq c)

/-- The normalisation `norm()`, `*this / len()`. -/
def norm [Field T] [DecidableEq T] (sqrt : T → T) (c : cplx T) : Option (cplx T) :=
  c.divs (c.len sqrt)

/-- The inverse `inv()`, `conj() / lensq()`. -/
def inv [Field T] [DecidableEq T] (c : cplx T) : Option (cplx T) :=
  c.conj.divs c.lensq

/-- The quotient `operator/(const cplx&)`, `*this * c.inv()`. -/
def div [Field T] [DecidableEq T] (a c : cplx T) : Option (cplx T) :=
  c.inv.map (fun i => a * i)

/-- The accessor `real()`. -/
def real (c : cplx T) : T := c.x

/-- The accessor `imag()`. -/
def imag (c : cplx T) : T := c.y

/-- The argument `arg()`, `atan2(y, x)`. -/
def arg (atan2 : T → T → T) (c : cplx T) : T := atan2 c.y c.x

/-- The polar form `polar()`, `cplx(len(), arg())`. -/
def polar [Ring T] (sqrt : T → T) (atan2 : T → T → T) (c : cplx T) : cplx T :=
  ⟨c.len sqrt, c.arg atan2⟩

/-- The matrix `mat()`, `mat2<T>(x, -y, y, x)`. -/
def mat [Ring T] (c : cplx T) : mat2 T := ⟨c.x, -c.y, c.y, c.x⟩

/-- The static `rand()`: two draws from the source, read at position `i`; the
new position is returned with the value. -/
def rand (draws : Nat → T) (i : Nat) : cplx T × Nat :=
  (⟨draws i, draws (i + 1)⟩, i + 2)

/-- The static `randnorm()`, `rand().norm()`. -/
def randnorm [Field T] [DecidableEq T] (sqrt : T → T) (draws : Nat → T) (i : Nat) :
    Option (cplx T) :=
  (rand draws i).1.norm sqrt

/-- The static `fromPolar(v)`, `cplx(v.x * cos(v.y), v.y * sin(v.y))`. -/
def fromPolar [Ring T] (cos sin : T → T) (v : vec2 T) : cplx T :=
  ⟨v.x * cos v.y, v.y * sin v.y⟩

end cplx

/-! ## quat.h -/

/-- The struct `quat<T>`: the tuple `(x, y, z, w)` standing for
`x + y·i + z·j + w·k`. -/
@[ext] structure quat (T : Type) where
  x : T
  y : T
  z : T
  w : T
deriving DecidableEq

namespace quat

variable {T : Type}

/-- The constructor `quat(T a = 0)`, through `set(a, 0, 0, 0)`. -/
def ofReal [Ring T] (a : T) : quat T := ⟨a, 0, 0, 0⟩

/-- The constructor `quat(const vec4<T>&)`. -/
def ofVec4 (v : vec4 T) : quat T := ⟨v.x, v.y, v.z, v.w⟩

/-- The constructor `quat(const vec3<T>&)`, `set(0, v.x, v.y, v.z)`. -/
def ofVec3 [Ring T] (v : vec3 T) : quat T := ⟨0, v.x, v.y, v.z⟩

/-- The constructor `quat(T a, const vec3<T>&)`, `set(a, v.x, v.y, v.z)`. -/
def ofRealVec3 (a : T) (v : vec3 T) : quat T := ⟨a, v.x, v.y, v.z⟩

/-- The constant `quat::I`, `(0, 1, 0, 0)`. -/
def I [Ring T] : quat T := ⟨0, 1, 0, 0⟩

/-- The constant `quat::J`, `(0, 0, 1, 0)`. -/
def J [Ring T] : quat T := ⟨0, 0, 1, 0⟩

/-- The constant `quat::K`, `(0, 0, 0, 1)`. -/
def K [Ring T] : quat T := ⟨0, 0, 0, 1⟩

/-- The sum `operator+(const quat&)`. -/
def add [Ring T] (a q : quat T) : quat T :=
  ⟨a.x + q.x, a.y + q.y, a.z + q.z, a.w + q.w⟩

/-- The difference `operator-(const quat&)`. -/
def sub [Ring T] (a q : quat T) : quat T :=
  ⟨a.x - q.x, a.y - q.y, a.z - q.z, a.w - q.w⟩

/-- The product `operator*(const quat&)`. -/
def mul [Ring T] (a q : quat T) : quat T :=
  ⟨a.x * q.x - a.y * q.y - a.z * q.z - a.w * q.w,
   a.x * q.y + a.y * q.x + a.z * q.w - a.w * q.z,
   a.x * q.z - a.y * q.w + a.z * q.x + a.w * q.y,
   a.x * q.w + a.y * q.z - a.z * q.y + a.w * q.x⟩

/-- The scalar product `operator*(T)`. -/
def muls [Ring T] (q : quat T) (a : T) : quat T :=
  ⟨q.x * a, q.y * a, q.z * a, q.w * a⟩

/-- The scalar quotient `operator/(T)`, each component divided by `a`. -/
def divs [Field T] [DecidableEq T] (q : quat T) (a : T) : Option (quat T) := do
  let x ← sdiv q.x a
  let y ← sdiv q.y a
  let z ← sdiv q.z a
  let w ← sdiv q.w a
  pure ⟨x, y, z, w⟩

/-- The unary `operator-()`, `*this * (-1)`. -/
def neg [Ring T] (q : quat T) : quat T := q.muls (-1)

instance [Ring T] : Add (quat T) := ⟨add⟩
instance [Ring T] : Sub (quat T) := ⟨sub⟩
instance [Ring T] : Mul (quat T) := ⟨mul⟩
instance [Ring T] : Neg (quat T) := ⟨neg⟩

/-- The conjugate `conj()`. -/
def conj [Ring T] (q : quat T) : quat T := ⟨q.x, -q.y, -q.z, -q.w⟩

/-- The squared norm `lensq()`. -/
def lensq [Ring T] (q : quat T) : T := q.x * q.x + q.y * q.y + q.z * q.z + q.w * q.w

/-- The norm `len()`, `sqrt(lensq())`. -/
def len [Ring T] (sqrt : T → T) (q : quat T) : T := sqrt q.lensq

/-- The squared distance `distsq(q)`. -/
def distsq [Ring T] (a q : quat T) : T := (a - q).lensq

/-- The distance `dist(q)`. -/
def dist [Ring T] (sqrt : T → T) (a q : quat T) : T := sqrt (a.distsq q)

/-- The normalisation `norm()`, `*this / len()`. -/
def norm [Field T] [DecidableEq T] (sqrt : T → T) (q : quat T) : Option (quat T) :=
  q.divs (q.len sqrt)

/-- The inverse `inv()`, `conj() / lensq()`. -/
def inv [Field T] [DecidableEq T] (q : quat T) : Option (quat T) :=
  q.conj.divs q.lensq

/-- The quotient `operator/(const quat&)`, `*this * q.inv()`. -/
def div [Field T] [DecidableEq T] (a q : quat T) : Option (quat T) :=
  q.inv.map (fun i => a * i)

/-- The accessor `real()`. -/
def real (q : quat T) : T := q.x

/-- The accessor `imag()`, the 3-vector `(y, z, w)`. -/
def imag (q : quat T) : vec3 T := ⟨q.y, q.z, q.w⟩

/-- The accessor `vec()`, the 4-vector `(x, y, z, w)`. -/
def vec (q : quat T) : vec4 T := ⟨q.x, q.y, q.z, q.w⟩

/-- The Euler angles `euler()`. -/
def euler [Ring T] (atan2 : T → T → T) (asin : T → T) (q : quat T) : vec3 T :=
  ⟨atan2 (2 * (q.x * q.y + q.z * q.w)) (1 - 2 * (q.y * q.y + q.z * q.z)),
   asin (2 * (q.x * q.z - q.w * q.y)),
   atan2 (2 * (q.x * q.w + q.y * q.z)) (1 - 2 * (q.z * q.z + q.w * q.w))⟩

/-- The matrix `mat()`, the sixteen arguments of `mat4<T>(...)` in the order of the
source. -/
def mat [Ring T] (q : quat T) : mat4 T :=
  ⟨q.x, q.y, q.z, q.w,
   -q.y, q.x, -q.w, q.z,
   -q.z, q.w, q.x, -q.y,
   -q.w, -q.z, q.y, q.x⟩

/-- The matrix `rmat()`, the sixteen arguments of `mat4<T>(...)` in the order of the
source. -/
def rmat [Ring T] (q : quat T) : mat4 T :=
  ⟨1 - 2 * (q.z * q.z - q.w * q.w), 2 * (q.y * q.z - q.w * q.x), 2 * (q.y * q.w + q.z * q.x), 0,
   2 * (q.y * q.z + q.w * q.x), 1 - 2 * (q.y * q.y - q.w * q.w), 2 * (q.z * q.w - q.y * q.x), 0,
   2 * (q.y * q.w - q.z * q.x), 2 * (q.z * q.w + q.y * q.x), 1 - 2 * (q.y * q.y - q.z * q.z), 0,
   0, 0, 0, 1⟩

/-- The rotation `rotate(v)`, `(*this * quat(v) * inv()).imag()`. -/
def rotate [Field T] [DecidableEq T] (q : quat T) (v : vec3 T) : Option (vec3 T) :=
  q.inv.map (fun i => (q * ofVec3 v * i).imag)

/-- The static `rand()`: four draws from the source, read at position `i` in the
order of the constructor arguments (C++ leaves the order in which the four
arguments are evaluated unspecified); the new position is returned with the
value. -/
def rand (draws : Nat → T) (i : Nat) : quat T × Nat :=
  (⟨draws i, draws (i + 1), draws (i + 2), draws (i + 3)⟩, i + 4)

/-- The static `randnorm()`, `rand().norm()`. -/
def randnorm [Field T] [DecidableEq T] (sqrt : T → T) (draws : Nat → T) (i : Nat) :
    Option (quat T) :=
  (rand draws i).1.norm sqrt

/-- The loop `do { r = rand(); } while (r.lensq() > 1);` of `randrot()`: the first
candidate whose squared norm is at most 1, with the position of the source after
it; `none` when the fuel runs out. -/
def randrotLoop [LinearOrderedField T] (draws : Nat → T) : Nat → Nat → Option (quat T × Nat)
  | 0, _ => none
  | fuel + 1, i =>
    let r := rand draws i
    if r.1.lensq > 1 then randrotLoop draws fuel r.2 else some r

/-- The static `randrot()`: the loop, then `return r.norm()`. -/
def randrot [LinearOrderedField T] (sqrt : T → T) (draws : Nat → T) (fuel : Nat) :
    Option (quat T) :=
  (randrotLoop draws fuel 0).bind (fun r => r.1.norm sqrt)

/-- The static `rotX(a)`. -/
def rotX [Field T] (cos sin : T → T) (a : T) : quat T := ⟨cos (a / 2), sin (a / 2), 0, 0⟩

/-- The static `rotY(a)`. -/
def rotY [Field T] (cos sin : T → T) (a : T) : quat T := ⟨cos (a / 2), 0, sin (a / 2), 0⟩

/-- The static `rotZ(a)`. -/
def rotZ [Field T] (cos sin : T → T) (a : T) : quat T := ⟨cos (a / 2), 0, 0, sin (a / 2)⟩

/-- The static `rot(const vec3<T> v)`, `rotZ(v.z) * rotY(v.y) * rotZ(v.z)`. -/
def rot [Field T] (cos sin : T → T) (v : vec3 T) : quat T :=
  rotZ cos sin v.z * rotY cos sin v.y * rotZ cos sin v.z

/-- The static `rot(T a, const vec3<T> v)`, `quat(cos(a / 2), v * sin(a / 2))`. -/
def rotAxis [Field T] (cos sin : T → T) (a : T) (v : vec3 T) : quat T :=
  ofRealVec3 (cos (a / 2)) (v.muls (sin (a / 2)))

/-- The reference product for the Hamilton-product claim: a `quat` read as a
quaternion of Mathlib, with `x` the real part and `(y, z, w)` the coefficients
of `i`, `j`, `k`. -/
def toQuaternion [CommRing T] (q : quat T) : Quaternion T := ⟨q.x, q.y, q.z, q.w⟩

end quat

/-! ## Lemmas on the embedding -/

section Lemmas

variable {T : Type}

theorem sdiv_of_ne [Field T] [DecidableEq T] (a : T) {b : T} (h : b ≠ 0) :
    sdiv a b = some (a / b) := by
  simp [sdiv, h]

theorem sdiv_zero [Field T] [DecidableEq T] (a : T) : sdiv a 0 = none := by
  simp [sdiv]

theorem quat_mul_def [Ring T] (a q : quat T) : a * q = quat.mul a q := rfl

theorem quat_neg_def [Ring T] (q : quat T) : -q = quat.neg q := rfl

theorem cplx_mul_def [Ring T] (a c : cplx T) : a * c = cplx.mul a c := rfl

theorem quat_divs_of_ne [Field T] [DecidableEq T] (q : quat T) {a : T} (h : a ≠ 0) :
    q.divs a = some ⟨q.x / a, q.y / a, q.z / a, q.w / a⟩ := by
  simp [quat.divs, sdiv_of_ne _ h]

theorem quat_divs_zero [Field T] [DecidableEq T] (q : quat T) : q.divs 0 = none := by
  simp [quat.divs, sdiv_zero]

theorem cplx_divs_of_ne [Field T] [DecidableEq T] (c : cplx T) {a : T} (h : a ≠ 0) :
    c.divs a = some ⟨c.x / a, c.y / a⟩ := by
  simp [cplx.divs, sdiv_of_ne _ h]

theorem quat_inv_of_ne [Field T] [DecidableEq T] (q : quat T) (h : q.lensq ≠ 0) :
    q.inv = some ⟨q.x / q.lensq, -q.y / q.lensq, -q.z / q.lensq, -q.w / q.lensq⟩ := by
  simp [quat.inv, quat_divs_of_ne _ h, quat.conj]

theorem cplx_inv_of_ne [Field T] [DecidableEq T] (c : cplx T) (h : c.lensq ≠ 0) :
    c.inv = some ⟨c.x / c.lensq, -c.y / c.lensq⟩ := by
  simp [cplx.inv, cplx_divs_of_ne _ h, cplx.conj]

theorem quat_rotate_of_ne [Field T] [DecidableEq T] (q : quat T) (v : vec3 T)
    (h : q.lensq ≠ 0) :
    q.rotate v = some (q * quat.ofVec3 v *
      ⟨q.x / q.lensq, -q.y / q.lensq, -q.z / q.lensq, -q.w / q.lensq⟩).imag := by
  simp [quat.rotate, quat_inv_of_ne q h]

theorem quat_muls_mul [CommRing T] (a b : quat T) (s : T) :
    a.muls s * b = (a * b).muls s := by
  simp only [quat_mul_def, quat.mul, quat.muls]
  ext <;> simp only [] <;> ring

theorem quat_mul_muls [CommRing T] (a b : quat T) (s : T) :
    a * b.muls s = (a * b).muls s := by
  simp only [quat_mul_def, quat.mul, quat.muls]
  ext <;> simp only [] <;> ring

theorem quat_muls_muls [CommRing T] (a : quat T) (s t : T) :
    (a.muls s).muls t = a.muls (s * t) := by
  simp only [quat.muls]
  ext <;> simp only [] <;> ring

theorem quat_muls_one [CommRing T] (a : quat T) : a.muls 1 = a := by
  simp [quat.muls]

theorem quat_lensq_muls [CommRing T] (q : quat T) (s : T) :
    (q.muls s).lensq = q.lensq * (s * s) := by
  simp only [quat.lensq, quat.muls]; ring

theorem quat_lensq_nonneg (q : quat ℝ) : 0 ≤ q.lensq := by
  unfold quat.lensq
  nlinarith [mul_self_nonneg q.x, mul_self_nonneg q.y, mul_self_nonneg q.z, mul_self_nonneg q.w]

/-- What `mat()` computes under the row-major, column-vector reading: the
product with the conjugate on the right, `q₂ * conj(q₁)`. -/
theorem quat_mat_mulVec_vec [CommRing T] (q₁ q₂ : quat T) :
    q₁.mat.mulVec q₂.vec = (q₂ * q₁.conj).vec := by
  simp only [quat.mat, mat4.mulVec, quat.vec, quat_mul_def, quat.mul, quat.conj]
  ext <;> simp <;> ring

/-- Normalising a nonzero real quaternion is defined and gives norm 1. -/
theorem quat_norm_len_eq_one (q : quat ℝ) (h : q.lensq ≠ 0) :
    ∃ r, q.norm Real.sqrt = some r ∧ r.len Real.sqrt = 1 := by
  have hpos : 0 < q.lensq := lt_of_le_of_ne (quat_lensq_nonneg q) (Ne.symm h)
  have hs : 0 < Real.sqrt q.lensq := Real.sqrt_pos.mpr hpos
  have hss : Real.sqrt q.lensq * Real.sqrt q.lensq = q.lensq := Real.mul_self_sqrt hpos.le
  refine ⟨_, quat_divs_of_ne q (ne_of_gt hs), ?_⟩
  have hone : (⟨q.x / Real.sqrt q.lensq, q.y / Real.sqrt q.lensq, q.z / Real.sqrt q.lensq,
      q.w / Real.sqrt q.lensq⟩ : quat ℝ).lensq = 1 := by
    have e : (⟨q.x / Real.sqrt q.lensq, q.y / Real.sqrt q.lensq, q.z / Real.sqrt q.lensq,
      q.w / Real.sqrt q.lensq⟩ : quat ℝ).lensq
        = q.lensq / (Real.sqrt q.lensq * Real.sqrt q.lensq) := by
      simp only [quat.lensq]
      field_simp
    rw [e, hss, div_self h]
  simp only [quat.len] at *
  rw [hone, Real.sqrt_one]

/-- Once the loop of `randrot()` has stopped at a candidate, `randrot()` is the
normalisation of that candidate. -/
theorem quat_randrot_of_loop [LinearOrderedField T] (sqrt : T → T) (draws : Nat → T)
    (fuel : Nat) (r : quat T × Nat) (h : quat.randrotLoop draws fuel 0 = some r) :
    quat.randrot sqrt draws fuel = r.1.norm sqrt := by
  simp [quat.randrot, h]

/-- The squared norm of a real complex number is non-negative. -/
theorem cplx_lensq_nonneg (c : cplx ℝ) : 0 ≤ c.lensq := by
  unfold cplx.lensq
  nlinarith [mul_self_nonneg c.x, mul_self_nonneg c.y]

/-- The sandwich `q * quat(v) * conj(q)` has real part 0. -/
theorem quat_sandwich_real [CommRing T] (q : quat T) (v : vec3 T) :
    (q * quat.ofVec3 v * q.conj).x = 0 := by
  simp only [quat_mul_def, quat.mul, quat.ofVec3, quat.conj]
  ring

/-- The imaginary part of the sandwich `q * quat(v) * conj(q)` has the squared
length of `v` scaled by `lensq(q)²`. -/
theorem quat_sandwich_lensq [CommRing T] (q : quat T) (v : vec3 T) :
    (q * quat.ofVec3 v * q.conj).y * (q * quat.ofVec3 v * q.conj).y
      + (q * quat.ofVec3 v * q.conj).z * (q * quat.ofVec3 v * q.conj).z
      + (q * quat.ofVec3 v * q.conj).w * (q * quat.ofVec3 v * q.conj).w
      = q.lensq * q.lensq * (v.x * v.x + v.y * v.y + v.z * v.z) := by
  simp only [quat_mul_def, quat.mul, quat.ofVec3, quat.conj, quat.lensq]
  ring

theorem quat_inv_eq_conj_muls [Field T] [DecidableEq T] (q : quat T)
    (h : q.lensq ≠ 0) : q.inv = some (q.conj.muls q.lensq⁻¹) := by
  rw [quat_inv_of_ne q h]
  simp only [quat.conj, quat.muls, div_eq_mul_inv]

theorem real_cos_eq_half (a : ℝ) :
    Real.cos a = Real.cos (a / 2) * Real.cos (a / 2) - Real.sin (a / 2) * Real.sin (a / 2) := by
  have h := Real.cos_two_mul (a / 2)
  have h1 := Real.cos_sq_add_sin_sq (a / 2)
  rw [show 2 * (a / 2) = a by ring] at h
  nlinarith

theorem real_sin_eq_half (a : ℝ) :
    Real.sin a = 2 * (Real.sin (a / 2) * Real.cos (a / 2)) := by
  have h := Real.sin_two_mul (a / 2)
  rw [show 2 * (a / 2) = a by ring] at h
  rw [h]; ring

theorem real_half_sq_sum (a : ℝ) :
    Real.cos (a / 2) * Real.cos (a / 2) + Real.sin (a / 2) * Real.sin (a / 2) = 1 := by
  have h1 := Real.cos_sq_add_sin_sq (a / 2)
  nlinarith

theorem real_cos_eq_one_sub (a : ℝ) :
    Real.cos a = 1 - 2 * (Real.sin (a / 2) * Real.sin (a / 2)) := by
  have h := real_cos_eq_half a
  have h1 := real_half_sq_sum a
  linarith

/-- The principal argument of `cos a + sin a · i` is `a` on `(-π, π]`. -/
theorem arg_mk_cos_sin (a : ℝ) (h1 : -Real.pi < a) (h2 : a ≤ Real.pi) :
    Complex.arg ⟨Real.cos a, Real.sin a⟩ = a := by
  have h := Complex.arg_cos_add_sin_mul_I (θ := a) ⟨h1, h2⟩
  have e : (⟨Real.cos a, Real.sin a⟩ : ℂ) = Complex.cos a + Complex.sin a * Complex.I := by
    apply Complex.ext <;> simp [Complex.cos_ofReal_re, Complex.sin_ofReal_re,
      Complex.cos_ofReal_im, Complex.sin_ofReal_im]
  rw [e, h]

/-- The principal argument of a positive real is 0. -/
theorem arg_mk_pos (x : ℝ) (h : 0 < x) : Complex.arg ⟨x, 0⟩ = 0 := by
  have e : (⟨x, 0⟩ : ℂ) = (x : ℂ) := rfl
  rw [e, Complex.arg_ofReal_of_nonneg h.le]

end Lemmas

/-! ## The claims -/

/-- C1 (fails on the code): under the row-major, column-vector reading `mat()` is not
the left-multiplication matrix. At `q₁ = q₂ = I` the product `I.mat() · vec(I)` is
`(1, 0, 0, 0)` while `vec(I * I)` is `(-1, 0, 0, 0)`. -/
theorem quat_mat_I_mulVec_I :
    (quat.mat (quat.I : quat ℤ)).mulVec (quat.vec quat.I) = ⟨1, 0, 0, 0⟩ ∧
    quat.vec ((quat.I : quat ℤ) * quat.I) = ⟨-1, 0, 0, 0⟩ ∧
    (quat.mat (quat.I : quat ℤ)).mulVec (quat.vec quat.I)
      ≠ quat.vec ((quat.I : quat ℤ) * quat.I) := by
  decide

/-- C2 (fails on the code): for the unit quaternion `rotZ(π)` and `v = (1, 0, 0)` the
matrix `rmat()` applied to `(1, 0, 0, 1)` gives `(3, 0, 0, 1)`, while `rotate(v)`
gives `(-1, 0, 0)`. -/
theorem quat_rmat_rotZ_pi :
    (quat.rotZ Real.cos Real.sin Real.pi).lensq = 1 ∧
    (quat.rotZ Real.cos Real.sin Real.pi).rmat.mulVec ⟨1, 0, 0, 1⟩ = ⟨3, 0, 0, 1⟩ ∧
    (quat.rotZ Real.cos Real.sin Real.pi).rotate ⟨1, 0, 0⟩ = some ⟨-1, 0, 0⟩ := by
  have hq : quat.rotZ Real.cos Real.sin Real.pi = ⟨0, 0, 0, 1⟩ := by
    simp [quat.rotZ]
  have hl : (⟨0, 0, 0, 1⟩ : quat ℝ).lensq = 1 := by simp [quat.lensq]
  rw [hq]
  refine ⟨hl, ?_, ?_⟩
  · simp [quat.rmat, mat4.mulVec]
    norm_num
  · rw [quat_rotate_of_ne _ _ (by rw [hl]; exact one_ne_zero)]
    simp [hl, quat_mul_def, quat.mul, quat.ofVec3, quat.imag]

/-- C3: `operator*` is the Hamilton product: it has the four components of the
claim, and it is the product of Mathlib's quaternions under `x` = real part,
`(y, z, w)` = coefficients of `(i, j, k)`. -/
theorem quat_mul_hamilton {T : Type} [CommRing T] (a b : quat T) :
    a * b = ⟨a.x * b.x - a.y * b.y - a.z * b.z - a.w * b.w,
             a.x * b.y + a.y * b.x + a.z * b.w - a.w * b.z,
             a.x * b.z - a.y * b.w + a.z * b.x + a.w * b.y,
             a.x * b.w + a.y * b.z - a.z * b.y + a.w * b.x⟩ ∧
    (a * b).toQuaternion = a.toQuaternion * b.toQuaternion := by
  refine ⟨rfl, ?_⟩
  ext <;> simp [quat.toQuaternion, quat_mul_def, quat.mul]

/-- C4: the inverse is a right inverse. Over a field, for a quaternion `q` and a
complex number `c` of nonzero squared norm, `inv()` is defined and
`q * q.inv() = (1, 0, 0, 0)`, `c * c.inv() = (1, 0)`. -/
theorem mul_inv_eq_identity {T : Type} [Field T] [DecidableEq T] (q : quat T) (c : cplx T)
    (hq : q.lensq ≠ 0) (hc : c.lensq ≠ 0) :
    (∃ qi, q.inv = some qi ∧ q * qi = ⟨1, 0, 0, 0⟩) ∧
    (∃ ci, c.inv = some ci ∧ c * ci = ⟨1, 0⟩) := by
  refine ⟨⟨_, quat_inv_of_ne q hq, ?_⟩, ⟨_, cplx_inv_of_ne c hc, ?_⟩⟩
  · simp only [quat_mul_def, quat.mul]
    have hq' := hq
    simp only [quat.lensq] at hq'
    ext <;> simp only [quat.lensq] <;> field_simp <;> ring
  · simp only [cplx_mul_def, cplx.mul]
    have hc' := hc
    simp only [cplx.lensq] at hc'
    ext
    · simp only [cplx.lensq]
      field_simp
    · simp only [cplx.lensq]
      field_simp
      ring

/-- The right-inverse property at `q = (1, 2, 3, 4)` and `c = (3, 4)` over the
rationals. -/
theorem mul_inv_eq_identity_witness :
    (∃ qi, (⟨1, 2, 3, 4⟩ : quat ℚ).inv = some qi ∧
      (⟨1, 2, 3, 4⟩ : quat ℚ) * qi = ⟨1, 0, 0, 0⟩) ∧
    (∃ ci, (⟨3, 4⟩ : cplx ℚ).inv = some ci ∧ (⟨3, 4⟩ : cplx ℚ) * ci = ⟨1, 0⟩) :=
  mul_inv_eq_identity ⟨1, 2, 3, 4⟩ ⟨3, 4⟩ (by norm_num [quat.lensq]) (by norm_num [cplx.lensq])

/-- C5: quaternion multiplication is associative over a commutative ring. -/
theorem quat_mul_assoc {T : Type} [CommRing T] (a b c : quat T) :
    (a * b) * c = a * (b * c) := by
  simp only [quat_mul_def, quat.mul]
  ext <;> simp <;> ring

/-- C6: on the basis constants, `I * J = K`, `J * I = -K` (the unary minus being
`K * (-1)`), and `I * J ≠ J * I`. -/
theorem quat_I_mul_J {T : Type} [LinearOrderedRing T] :
    (quat.I : quat T) * quat.J = quat.K ∧
    (quat.J : quat T) * quat.I = -quat.K ∧
    (quat.I : quat T) * quat.J ≠ quat.J * quat.I := by
  refine ⟨?_, ?_, ?_⟩
  · simp [quat_mul_def, quat.mul, quat.I, quat.J, quat.K]
  · simp [quat_mul_def, quat.mul, quat.I, quat.J, quat.K, quat_neg_def, quat.neg, quat.muls]
  · intro h
    have hw := congrArg quat.w h
    simp [quat_mul_def, quat.mul, quat.I, quat.J] at hw
    have h1 : (0 : T) < 1 := zero_lt_one
    have h2 : (-1 : T) < 0 := neg_lt_zero.mpr h1
    rw [← hw] at h2
    exact lt_asymm h1 h2

/-- C7 (as stated, fails): on the draws that are all `0`, each in `[0, 1)`, the
loop of `randrot()` stops at the first candidate `(0, 0, 0, 0)`, whose squared norm
`0` is at most 1, and `norm()` then divides by the norm `0`: no quaternion of
norm 1 is returned, whatever the fuel. -/
theorem randrot_zero_draws :
    (∀ i : Nat, (0 : ℝ) ≤ (fun _ => (0 : ℝ)) i ∧ (fun _ => (0 : ℝ)) i < 1) ∧
    quat.randrotLoop (fun _ => (0 : ℝ)) 1 0 = some (⟨0, 0, 0, 0⟩, 4) ∧
    quat.randrot Real.sqrt (fun _ => (0 : ℝ)) 1 = none ∧
    ∀ fuel r, quat.randrot Real.sqrt (fun _ => (0 : ℝ)) fuel ≠ some r := by
  have hl : ∀ n, quat.randrotLoop (fun _ => (0 : ℝ)) (n + 1) 0 = some (⟨0, 0, 0, 0⟩, 4) := by
    intro n
    simp [quat.randrotLoop, quat.rand, quat.lensq]
  have hn : ∀ n, quat.randrot Real.sqrt (fun _ => (0 : ℝ)) (n + 1) = none := by
    intro n
    rw [quat_randrot_of_loop _ _ _ _ (hl n)]
    simp [quat.norm, quat.len, quat.lensq, quat_divs_zero]
  refine ⟨fun i => by norm_num, hl 0, hn 0, ?_⟩
  intro fuel r
  cases fuel with
  | zero => simp [quat.randrot, quat.randrotLoop]
  | succ n => rw [hn n]; simp

/-- C7 (amended): over the reals, for every sequence of draws on which the loop of
`randrot()` stops at a candidate `r₀` of nonzero squared norm, `randrot()` returns
a quaternion and its `len()` is 1. -/
theorem randrot_unit (draws : Nat → ℝ) (fuel : Nat) (r₀ : quat ℝ) (j : Nat)
    (hloop : quat.randrotLoop draws fuel 0 = some (r₀, j)) (hne : r₀.lensq ≠ 0) :
    ∃ r, quat.randrot Real.sqrt draws fuel = some r ∧ r.len Real.sqrt = 1 := by
  rw [quat_randrot_of_loop _ _ _ _ hloop]
  exact quat_norm_len_eq_one r₀ hne

/-- The amended C7 on the draws that are all `1/2`: the first candidate
`(1/2, 1/2, 1/2, 1/2)` has squared norm 1 and is accepted. -/
theorem randrot_unit_witness :
    ∃ r, quat.randrot Real.sqrt (fun _ => (1 / 2 : ℝ)) 1 = some r ∧ r.len Real.sqrt = 1 :=
  randrot_unit (fun _ => (1 / 2 : ℝ)) 1 ⟨1 / 2, 1 / 2, 1 / 2, 1 / 2⟩ 4
    (by simp [quat.randrotLoop, quat.rand, quat.lensq]; norm_num)
    (by norm_num [quat.lensq])

/-- C9: `rotate` does not require normalisation. Over a field, for `q` of nonzero
squared norm and a nonzero scalar `s`, `rotate(v)` is defined for `q` and for
`q * s`, with the same result. -/
theorem rotate_muls {T : Type} [Field T] [DecidableEq T] (q : quat T) (s : T) (v : vec3 T)
    (hq : q.lensq ≠ 0) (hs : s ≠ 0) :
    ∃ r, q.rotate v = some r ∧ (q.muls s).rotate v = some r := by
  have hqs : (q.muls s).lensq ≠ 0 := by
    rw [quat_lensq_muls]
    exact mul_ne_zero hq (mul_ne_zero hs hs)
  refine ⟨_, quat_rotate_of_ne q v hq, ?_⟩
  rw [quat_rotate_of_ne _ v hqs, quat_lensq_muls]
  have hi : (⟨(q.muls s).x / (q.lensq * (s * s)), -(q.muls s).y / (q.lensq * (s * s)),
      -(q.muls s).z / (q.lensq * (s * s)), -(q.muls s).w / (q.lensq * (s * s))⟩ : quat T)
      = (⟨q.x / q.lensq, -q.y / q.lensq, -q.z / q.lensq, -q.w / q.lensq⟩ : quat T).muls s⁻¹ := by
    simp only [quat.muls]
    ext <;> field_simp <;> ring
  rw [hi, quat_muls_mul, quat_muls_mul, quat_mul_muls, quat_muls_muls, inv_mul_cancel₀ hs,
    quat_muls_one]

/-- The scale invariance of `rotate` at `q = (1, 2, 3, 4)`, `s = 5`, `v = (1, 0, 0)`
over the rationals. -/
theorem rotate_muls_witness :
    ∃ r, (⟨1, 2, 3, 4⟩ : quat ℚ).rotate ⟨1, 0, 0⟩ = some r ∧
      ((⟨1, 2, 3, 4⟩ : quat ℚ).muls 5).rotate ⟨1, 0, 0⟩ = some r :=
  rotate_muls ⟨1, 2, 3, 4⟩ 5 ⟨1, 0, 0⟩ (by norm_num [quat.lensq]) (by norm_num)

/-- C10: `cplx::mat()` is `[[x, -y], [y, x]]` row-major, and its product with the
column vector `(b.x, b.y)` is the pair of components of `a * b`. -/
theorem cplx_mat_mulVec {T : Type} [CommRing T] (a b : cplx T) :
    a.mat = ⟨a.x, -a.y, a.y, a.x⟩ ∧
    a.mat.mulVec ⟨b.x, b.y⟩ = ⟨(a * b).x, (a * b).y⟩ := by
  refine ⟨rfl, ?_⟩
  simp only [cplx.mat, mat2.mulVec, cplx_mul_def, cplx.mul]
  ext <;> simp <;> ring

/-- C11: conjugation is an involution: `q.conj().conj() = q` for every quaternion
and `c.conj().conj() = c` for every complex number. -/
theorem conj_involution {T : Type} [Ring T] (q : quat T) (c : cplx T) :
    q.conj.conj = q ∧ c.conj.conj = c := by
  constructor
  · simp [quat.conj]
  · simp [cplx.conj]

/-- C12: over the reals, for every quaternion and every complex number, `lensq()` is
non-negative, `len()` is non-negative and `len()² = lensq()`; and
`cplx(3, 4).len() = 5`. -/
theorem len_sq_eq_lensq (q : quat ℝ) (c : cplx ℝ) :
    (0 ≤ q.lensq ∧ 0 ≤ q.len Real.sqrt ∧ q.len Real.sqrt ^ 2 = q.lensq) ∧
    (0 ≤ c.lensq ∧ 0 ≤ c.len Real.sqrt ∧ c.len Real.sqrt ^ 2 = c.lensq) ∧
    (⟨3, 4⟩ : cplx ℝ).len Real.sqrt = 5 := by
  refine ⟨⟨quat_lensq_nonneg q, Real.sqrt_nonneg _, Real.sq_sqrt (quat_lensq_nonneg q)⟩,
    ⟨cplx_lensq_nonneg c, Real.sqrt_nonneg _, Real.sq_sqrt (cplx_lensq_nonneg c)⟩, ?_⟩
  have h : (⟨3, 4⟩ : cplx ℝ).lensq = 5 * 5 := by
    simp only [cplx.lensq]; norm_num
  rw [cplx.len, h, Real.sqrt_mul_self (by norm_num)]

/-- C13: `rot(v) = rotZ(v.z) * rotY(v.y) * rotZ(v.z)`, the product associated to the
left; so `rot(v) = rot(v')` whenever `v` and `v'` have the same `y` and the same
`z`: `rot` does not depend on `v.x`. -/
theorem rot_eq_rotZ_rotY_rotZ {T : Type} [Field T] (cos sin : T → T) (v v' : vec3 T)
    (hy : v.y = v'.y) (hz : v.z = v'.z) :
    quat.rot cos sin v
      = quat.rotZ cos sin v.z * quat.rotY cos sin v.y * quat.rotZ cos sin v.z ∧
    quat.rot cos sin v = quat.rot cos sin v' := by
  refine ⟨rfl, ?_⟩
  simp only [quat.rot, hy, hz]

/-- The independence of `rot` from `v.x` at `v = (1, 2, 3)` and `v' = (5, 2, 3)` over
the reals. -/
theorem rot_eq_rotZ_rotY_rotZ_witness :
    quat.rot Real.cos Real.sin (⟨1, 2, 3⟩ : vec3 ℝ)
      = quat.rotZ Real.cos Real.sin 3 * quat.rotY Real.cos Real.sin 2
          * quat.rotZ Real.cos Real.sin 3 ∧
    quat.rot Real.cos Real.sin (⟨1, 2, 3⟩ : vec3 ℝ) = quat.rot Real.cos Real.sin ⟨5, 2, 3⟩ :=
  rot_eq_rotZ_rotY_rotZ Real.cos Real.sin ⟨1, 2, 3⟩ ⟨5, 2, 3⟩ rfl rfl

/-- C14: `fromPolar(v) = (v.x · cos(v.y), v.y · sin(v.y))` for every `v`; the
y-component is `v.y · sin(v.y)` and not `v.x · sin(v.y)`: at `v = (2, π/2)` it is
`π/2`, where `v.x · sin(v.y)` is 2. -/
theorem fromPolar_formula :
    (∀ (T : Type) [Ring T] (cos sin : T → T) (v : vec2 T),
      cplx.fromPolar cos sin v = ⟨v.x * cos v.y, v.y * sin v.y⟩) ∧
    (cplx.fromPolar Real.cos Real.sin ⟨2, Real.pi / 2⟩).y = Real.pi / 2 ∧
    (cplx.fromPolar Real.cos Real.sin ⟨2, Real.pi / 2⟩).y ≠ 2 * Real.sin (Real.pi / 2) := by
  refine ⟨fun _ _ _ _ _ => rfl, ?_, ?_⟩
  · simp [cplx.fromPolar]
  · simp only [cplx.fromPolar, Real.sin_pi_div_two, mul_one]
    have := Real.pi_lt_four
    intro h
    linarith

/-- C15: `operator*` of `cplx` is the standard complex product
`(x₁x₂ − y₁y₂, x₁y₂ + y₁x₂)`; `cplx(1, 0)` is a two-sided identity, and
`cplx(1, 0) * cplx(0, 1) = cplx(0, 1)`. -/
theorem cplx_mul_standard {T : Type} [Ring T] (a b c : cplx T) :
    a * b = ⟨a.x * b.x - a.y * b.y, a.x * b.y + a.y * b.x⟩ ∧
    (⟨1, 0⟩ : cplx T) * c = c ∧ c * (⟨1, 0⟩ : cplx T) = c ∧
    (⟨1, 0⟩ : cplx T) * ⟨0, 1⟩ = ⟨0, 1⟩ := by
  refine ⟨rfl, ?_, ?_, ?_⟩ <;> simp [cplx_mul_def, cplx.mul]

/-- C16: for a unit real quaternion the pitch of `euler()` is `asin` of
`2·(x·z − w·y)`, and that argument lies in `[-1, 1]`; so with the arcsine of the
reals the sine of the pitch is the argument itself. -/
theorem euler_asin_arg_mem (q : quat ℝ) (h : q.lensq = 1) :
    (∀ (atan2 : ℝ → ℝ → ℝ) (asin : ℝ → ℝ),
      (q.euler atan2 asin).y = asin (2 * (q.x * q.z - q.w * q.y))) ∧
    -1 ≤ 2 * (q.x * q.z - q.w * q.y) ∧ 2 * (q.x * q.z - q.w * q.y) ≤ 1 ∧
    ∀ atan2 : ℝ → ℝ → ℝ,
      Real.sin (q.euler atan2 Real.arcsin).y = 2 * (q.x * q.z - q.w * q.y) := by
  simp only [quat.lensq] at h
  have h1 : -1 ≤ 2 * (q.x * q.z - q.w * q.y) := by
    nlinarith [sq_nonneg (q.x + q.z), sq_nonneg (q.w - q.y)]
  have h2 : 2 * (q.x * q.z - q.w * q.y) ≤ 1 := by
    nlinarith [sq_nonneg (q.x - q.z), sq_nonneg (q.w + q.y)]
  exact ⟨fun _ _ => rfl, h1, h2, fun _ => Real.sin_arcsin h1 h2⟩

/-- The bound on the argument of `asin` at the gimbal-lock quaternion
`(√2/2, 0, √2/2, 0)`, where the argument is 1. -/
theorem euler_asin_arg_mem_witness :
    (∀ (atan2 : ℝ → ℝ → ℝ) (asin : ℝ → ℝ),
      ((⟨√2 / 2, 0, √2 / 2, 0⟩ : quat ℝ).euler atan2 asin).y
        = asin (2 * (√2 / 2 * (√2 / 2) - 0 * 0))) ∧
    -1 ≤ 2 * (√2 / 2 * (√2 / 2) - 0 * 0) ∧ 2 * (√2 / 2 * (√2 / 2) - 0 * 0) ≤ 1 ∧
    ∀ atan2 : ℝ → ℝ → ℝ,
      Real.sin ((⟨√2 / 2, 0, √2 / 2, 0⟩ : quat ℝ).euler atan2 Real.arcsin).y
        = 2 * (√2 / 2 * (√2 / 2) - 0 * 0) :=
  euler_asin_arg_mem ⟨√2 / 2, 0, √2 / 2, 0⟩ (by
    have h : √2 * √2 = 2 := Real.mul_self_sqrt (by norm_num)
    simp only [quat.lensq]
    nlinarith)

/-- C17: the squared norm is multiplicative over a commutative ring,
`(a * b).lensq() = a.lensq() · b.lensq()`; hence the product of two unit
quaternions is a unit quaternion. -/
theorem quat_lensq_mul {T : Type} [CommRing T] (a b : quat T) :
    (a * b).lensq = a.lensq * b.lensq ∧
    (a.lensq = 1 → b.lensq = 1 → (a * b).lensq = 1) := by
  have h : (a * b).lensq = a.lensq * b.lensq := by
    simp only [quat_mul_def, quat.mul, quat.lensq]
    ring
  refine ⟨h, fun ha hb => ?_⟩
  rw [h, ha, hb, mul_one]

/-- The multiplicativity of the squared norm at the unit quaternions `I` and `J`
over the integers. -/
theorem quat_lensq_mul_witness :
    ((quat.I : quat ℤ) * quat.J).lensq = (quat.I : quat ℤ).lensq * (quat.J : quat ℤ).lensq ∧
    ((quat.I : quat ℤ) * quat.J).lensq = 1 :=
  ⟨(quat_lensq_mul quat.I quat.J).1, (quat_lensq_mul quat.I quat.J).2 (by decide) (by decide)⟩

/-- C18: over a field, for `q` of nonzero squared norm, `inv()` is defined, the real
part of `q * quat(0, v) * q.inv()` is 0, `rotate(v)` is defined and its squared
length is `v.x² + v.y² + v.z²`. -/
theorem rotate_pure_preserves_len {T : Type} [Field T] [DecidableEq T] (q : quat T)
    (v : vec3 T) (hq : q.lensq ≠ 0) :
    (∃ qi, q.inv = some qi ∧ (q * quat.ofRealVec3 0 v * qi).real = 0) ∧
    (∃ r, q.rotate v = some r ∧
      r.x * r.x + r.y * r.y + r.z * r.z = v.x * v.x + v.y * v.y + v.z * v.z) := by
  have hv : quat.ofRealVec3 0 v = quat.ofVec3 v := rfl
  have hinv := quat_inv_eq_conj_muls q hq
  refine ⟨⟨_, hinv, ?_⟩, ⟨(q * quat.ofVec3 v * q.conj.muls q.lensq⁻¹).imag, ?_, ?_⟩⟩
  · rw [hv, quat_mul_muls]
    simp only [quat.real, quat.muls, quat_sandwich_real, zero_mul]
  · simp [quat.rotate, hinv]
  · rw [quat_mul_muls]
    simp only [quat.imag, quat.muls]
    have hs := quat_sandwich_lensq q v
    have hL : q.lensq * q.lensq⁻¹ = 1 := mul_inv_cancel₀ hq
    generalize q * quat.ofVec3 v * q.conj = P at hs
    generalize q.lensq = L at hs hL
    calc P.y * L⁻¹ * (P.y * L⁻¹) + P.z * L⁻¹ * (P.z * L⁻¹) + P.w * L⁻¹ * (P.w * L⁻¹)
        = (P.y * P.y + P.z * P.z + P.w * P.w) * (L⁻¹ * L⁻¹) := by ring
      _ = (L * L⁻¹) * (L * L⁻¹) * (v.x * v.x + v.y * v.y + v.z * v.z) := by rw [hs]; ring
      _ = v.x * v.x + v.y * v.y + v.z * v.z := by rw [hL]; ring

/-- The length preservation of `rotate` at `q = (1, 2, 3, 4)` (not a unit quaternion)
and `v = (1, 2, 3)` over the rationals. -/
theorem rotate_pure_preserves_len_witness :
    (∃ qi, (⟨1, 2, 3, 4⟩ : quat ℚ).inv = some qi ∧
      ((⟨1, 2, 3, 4⟩ : quat ℚ) * quat.ofRealVec3 0 ⟨1, 2, 3⟩ * qi).real = 0) ∧
    (∃ r, (⟨1, 2, 3, 4⟩ : quat ℚ).rotate ⟨1, 2, 3⟩ = some r ∧
      r.x * r.x + r.y * r.y + r.z * r.z = (1 : ℚ) * 1 + 2 * 2 + 3 * 3) :=
  rotate_pure_preserves_len ⟨1, 2, 3, 4⟩ ⟨1, 2, 3⟩ (by norm_num [quat.lensq])

/-- C19: over the reals, for every angle `a`, `rotZ(a)` rotates `(1, 0, 0)` to
`(cos a, sin a, 0)`, `rotX(a)` rotates `(0, 1, 0)` to `(0, cos a, sin a)`, `rotY(a)`
rotates `(0, 0, 1)` to `(sin a, 0, cos a)`, and `rotX(a)`, `rotY(a)`, `rotZ(a)` have
squared norm 1. -/
theorem axis_rotations (a : ℝ) :
    (quat.rotZ Real.cos Real.sin a).rotate ⟨1, 0, 0⟩ = some ⟨Real.cos a, Real.sin a, 0⟩ ∧
    (quat.rotX Real.cos Real.sin a).rotate ⟨0, 1, 0⟩ = some ⟨0, Real.cos a, Real.sin a⟩ ∧
    (quat.rotY Real.cos Real.sin a).rotate ⟨0, 0, 1⟩ = some ⟨Real.sin a, 0, Real.cos a⟩ ∧
    (quat.rotX Real.cos Real.sin a).lensq = 1 ∧
    (quat.rotY Real.cos Real.sin a).lensq = 1 ∧
    (quat.rotZ Real.cos Real.sin a).lensq = 1 := by
  have hx : (quat.rotX Real.cos Real.sin a).lensq = 1 := by
    simp only [quat.rotX, quat.lensq]; linarith [real_half_sq_sum a]
  have hy : (quat.rotY Real.cos Real.sin a).lensq = 1 := by
    simp only [quat.rotY, quat.lensq]; linarith [real_half_sq_sum a]
  have hz : (quat.rotZ Real.cos Real.sin a).lensq = 1 := by
    simp only [quat.rotZ, quat.lensq]; linarith [real_half_sq_sum a]
  have hc := real_cos_eq_half a
  have hs := real_sin_eq_half a
  refine ⟨?_, ?_, ?_, hx, hy, hz⟩
  · rw [quat_rotate_of_ne _ _ (by rw [hz]; exact one_ne_zero), hz]
    simp only [quat_mul_def, quat.mul, quat.ofVec3, quat.imag, quat.rotZ, Option.some.injEq]
    ext <;> simp only [] <;> linarith
  · rw [quat_rotate_of_ne _ _ (by rw [hx]; exact one_ne_zero), hx]
    simp only [quat_mul_def, quat.mul, quat.ofVec3, quat.imag, quat.rotX, Option.some.injEq]
    ext <;> simp only [] <;> linarith
  · rw [quat_rotate_of_ne _ _ (by rw [hy]; exact one_ne_zero), hy]
    simp only [quat_mul_def, quat.mul, quat.ofVec3, quat.imag, quat.rotY, Option.some.injEq]
    ext <;> simp only [] <;> linarith

/-- C20: with `atan2(y, x)` the principal argument of `x + y·i` and `asin` the
arcsine of the reals, for `-π/2 < a < π/2` the Euler angles of `rotX(a)`, `rotY(a)`,
`rotZ(a)` are `(a, 0, 0)`, `(0, a, 0)`, `(0, 0, a)`. -/
theorem euler_axis_rotations (a : ℝ) (h1 : -(Real.pi / 2) < a) (h2 : a < Real.pi / 2) :
    (quat.rotX Real.cos Real.sin a).euler (fun y x => Complex.arg ⟨x, y⟩) Real.arcsin
      = ⟨a, 0, 0⟩ ∧
    (quat.rotY Real.cos Real.sin a).euler (fun y x => Complex.arg ⟨x, y⟩) Real.arcsin
      = ⟨0, a, 0⟩ ∧
    (quat.rotZ Real.cos Real.sin a).euler (fun y x => Complex.arg ⟨x, y⟩) Real.arcsin
      = ⟨0, 0, a⟩ := by
  have hpi := Real.pi_pos
  have hcos : 0 < Real.cos a := Real.cos_pos_of_mem_Ioo ⟨h1, h2⟩
  have harg : Complex.arg ⟨Real.cos a, Real.sin a⟩ = a :=
    arg_mk_cos_sin a (by linarith) (by linarith)
  have hasin : Real.arcsin (Real.sin a) = a := Real.arcsin_sin h1.le h2.le
  have hc := real_cos_eq_one_sub a
  have hs := real_sin_eq_half a
  have e1 : 2 * (Real.cos (a / 2) * Real.sin (a / 2)) = Real.sin a := by rw [hs]; ring
  have e2 : 1 - 2 * (Real.sin (a / 2) * Real.sin (a / 2)) = Real.cos a := hc.symm
  refine ⟨?_, ?_, ?_⟩
  · simp only [quat.euler, quat.rotX, mul_zero, zero_mul, add_zero, sub_zero, sub_self,
      Real.arcsin_zero, e1, e2, harg]
    rw [arg_mk_pos 1 one_pos]
  · simp only [quat.euler, quat.rotY, mul_zero, zero_mul, add_zero, zero_add, sub_zero,
      e1, e2, hasin]
    rw [arg_mk_pos _ hcos]
  · simp only [quat.euler, quat.rotZ, mul_zero, zero_mul, add_zero, zero_add, sub_zero,
      sub_self, Real.arcsin_zero, e1, e2, harg]
    rw [arg_mk_pos 1 one_pos]

/-- The Euler angles of the three axis rotations at the angle `a = 1`. -/
theorem euler_axis_rotations_witness :
    (quat.rotX Real.cos Real.sin 1).euler (fun y x => Complex.arg ⟨x, y⟩) Real.arcsin
      = ⟨1, 0, 0⟩ ∧
    (quat.rotY Real.cos Real.sin 1).euler (fun y x => Complex.arg ⟨x, y⟩) Real.arcsin
      = ⟨0, 1, 0⟩ ∧
    (quat.rotZ Real.cos Real.sin 1).euler (fun y x => Complex.arg ⟨x, y⟩) Real.arcsin
      = ⟨0, 0, 1⟩ :=
  euler_axis_rotations 1 (by linarith [Real.pi_pos]) (by linarith [Real.pi_gt_three])

end la
